import Mathlib

/-
Verification development for the async-graphql parser core
(async-graphql-parser/src/query.rs and query_parser.rs).

The Rust source is shallowly embedded: pure functions become Lean
functions, the mutable `Document` state of `retain_operation` becomes
explicit state passing, fallible code returns an explicit result type
whose `panicked` constructor models a Rust panic (unwrap / expect on a
contract violation).  Rust's `&'static str` identifiers are modelled as
`String`, string contents as `List Char`, and `HashMap` / `BTreeMap`
as key-unique association lists (their iteration order is never relied
upon by the properties below, only the key-to-value mapping).
-/

set_option autoImplicit false

namespace AsyncGraphql

/-- Modelled from the spec: `pos.rs` is not part of the given sources.
A `Pos` is a 1-indexed (line, column) location of a token. -/
structure Pos where
  line : Nat
  column : Nat
deriving DecidableEq, Repr

/-- Parser error carrying a position and a human readable message
(query_parser.rs, `struct Error`). -/
structure Error where
  pos : Pos
  message : String
deriving DecidableEq, Repr

/-- Modelled from the spec: `pos.rs` is not part of the given sources.
A value paired with the source position of its opening token. -/
structure Positioned (α : Type) where
  pos : Pos
  node : α
deriving DecidableEq, Repr

/-- Result of an embedded Rust computation: `ok` and `err` mirror
`Result<T, Error>`, while `panicked` models a Rust panic (an
`unwrap`/`expect` firing). -/
inductive PRes (α : Type) where
  | ok (value : α)
  | err (e : Error)
  | panicked (msg : String)
deriving DecidableEq, Repr

/-- Prepend a character to the accumulated output of an escape-decoding
computation, propagating errors and panics (models `res.push(c)` in the
left-to-right loop of `unquote_string`). -/
def pushRes (c : Char) : PRes (List Char) → PRes (List Char)
  | .ok l => .ok (c :: l)
  | .err e => .err e
  | .panicked m => .panicked m

/-- Key-unique association-list model of a `HashMap`/`BTreeMap` insert:
replaces the value at an existing key in place, otherwise appends. -/
def mapInsert {β : Type} : List (String × β) → String → β → List (String × β)
  | [], k, v => [(k, v)]
  | (k', v') :: rest, k, v =>
    if k' = k then (k, v) :: rest else (k', v') :: mapInsert rest k v

/-- Lookup in the association-list model of a map. -/
def mapLookup {β : Type} : List (String × β) → String → Option β
  | [], _ => none
  | (k, v) :: rest, key => if k = key then some v else mapLookup rest key

/-- Modelled from the spec: `value.rs` is not part of the given sources.
`Value` is the tagged union of GraphQL value literals (spec §3); the
float payload is kept as the raw token since no property here observes
IEEE float semantics, and the object payload is the key-unique
association-list model of the `BTreeMap`. -/
inductive Value where
  | variable_ (name : String)
  | int (n : Int)
  | float (raw : String)
  | string (s : List Char)
  | boolean (b : Bool)
  | null
  | enum (name : String)
  | list (items : List Value)
  | object (fields : List (String × Value))

/-- query.rs `enum Type` (named `Type'` because `Type` is reserved in Lean). -/
inductive Type' where
  | named (name : String)
  | list (ty : Type')
  | nonNull (ty : Type')
deriving DecidableEq, Repr

/-- query.rs `struct Directive`. -/
structure Directive where
  name : Positioned String
  arguments : List (Positioned String × Positioned Value)

/-- query.rs `enum TypeCondition`. -/
inductive TypeCondition where
  | on (name : Positioned String)
deriving DecidableEq, Repr

/-- query.rs `struct FragmentSpread`. -/
structure FragmentSpread where
  fragment_name : Positioned String
  directives : List (Positioned Directive)

/-- query.rs `struct VariableDefinition`. -/
structure VariableDefinition where
  name : Positioned String
  var_type : Positioned Type'
  default_value : Option (Positioned Value)

mutual

/-- query.rs `enum Selection`. -/
inductive Selection where
  | field (f : Positioned Field)
  | fragmentSpread (f : Positioned FragmentSpread)
  | inlineFragment (f : Positioned InlineFragment)

/-- query.rs `struct Field`. -/
inductive Field where
  | mk (alias_ : Option (Positioned String)) (name : Positioned String)
       (arguments : List (Positioned String × Positioned Value))
       (directives : List (Positioned Directive))
       (selection_set : Positioned SelectionSet)

/-- query.rs `struct InlineFragment`. -/
inductive InlineFragment where
  | mk (type_condition : Option (Positioned TypeCondition))
       (directives : List (Positioned Directive))
       (selection_set : Positioned SelectionSet)

/-- query.rs `struct SelectionSet`. -/
inductive SelectionSet where
  | mk (items : List (Positioned Selection))

end

/-- query.rs `struct FragmentDefinition`. -/
structure FragmentDefinition where
  name : Positioned String
  type_condition : Positioned TypeCondition
  directives : List (Positioned Directive)
  selection_set : Positioned SelectionSet

/-- query.rs `struct Query`. -/
structure Query where
  name : Option (Positioned String)
  variable_definitions : List (Positioned VariableDefinition)
  directives : List (Positioned Directive)
  selection_set : Positioned SelectionSet

/-- query.rs `struct Mutation`. -/
structure Mutation where
  name : Option (Positioned String)
  variable_definitions : List (Positioned VariableDefinition)
  directives : List (Positioned Directive)
  selection_set : Positioned SelectionSet

/-- query.rs `struct Subscription`. -/
structure Subscription where
  name : Option (Positioned String)
  variable_definitions : List (Positioned VariableDefinition)
  directives : List (Positioned Directive)
  selection_set : Positioned SelectionSet

/-- query.rs `enum OperationDefinition`. -/
inductive OperationDefinition where
  | selectionSet (s : Positioned SelectionSet)
  | query (q : Positioned Query)
  | mutation (m : Positioned Mutation)
  | subscription (s : Positioned Subscription)

/-- query.rs `enum Definition`. -/
inductive Definition where
  | operation (od : Positioned OperationDefinition)
  | fragment (f : Positioned FragmentDefinition)

/-- query.rs `enum OperationType`. -/
inductive OperationType where
  | query
  | mutation
  | subscription
deriving DecidableEq, Repr

/-- query.rs `struct CurrentOperation`. -/
structure CurrentOperation where
  ty : OperationType
  variable_definitions : List (Positioned VariableDefinition)
  selection_set : Positioned SelectionSet

/-- query.rs `type FragmentsMap` (`HashMap<&str, Positioned<FragmentDefinition>>`),
modelled as a key-unique association list. -/
abbrev FragmentsMap := List (String × Positioned FragmentDefinition)

/-- query.rs `struct Document`. -/
structure Document where
  source : String
  definitions : List (Positioned Definition)
  fragments : FragmentsMap
  current_operation : Option CurrentOperation

/-- One iteration of the `for definition in self.definitions.drain(..)` loop
of `Document::retain_operation` (query.rs lines 83-138); the mutable pair
(current_operation, fragments) is passed explicitly. -/
def retainStep (operation_name : Option String)
    (st : Option CurrentOperation × FragmentsMap) (definition : Positioned Definition) :
    Option CurrentOperation × FragmentsMap :=
  match definition.node, st.1 with
  | Definition.operation operation_definition, none =>
    (match operation_definition.node with
     | OperationDefinition.selectionSet s =>
       (some { ty := OperationType.query, variable_definitions := [], selection_set := s },
        st.2)
     | OperationDefinition.query query =>
       if query.node.name = none ∨ operation_name = none ∨
           query.node.name.map (fun name => name.node) = operation_name then
         (some { ty := OperationType.query,
                 variable_definitions := query.node.variable_definitions,
                 selection_set := query.node.selection_set }, st.2)
       else (none, st.2)
     | OperationDefinition.mutation mutation =>
       if mutation.node.name = none ∨ operation_name = none ∨
           mutation.node.name.map (fun name => name.node) = operation_name then
         (some { ty := OperationType.mutation,
                 variable_definitions := mutation.node.variable_definitions,
                 selection_set := mutation.node.selection_set }, st.2)
       else (none, st.2)
     | OperationDefinition.subscription subscription =>
       if subscription.node.name = none ∨ operation_name = none ∨
           subscription.node.name.map (fun name => name.node) = operation_name then
         (some { ty := OperationType.subscription,
                 variable_definitions := subscription.node.variable_definitions,
                 selection_set := subscription.node.selection_set }, st.2)
       else (none, st.2))
  | Definition.operation _, some c => (some c, st.2)
  | Definition.fragment fragment, cur =>
    (cur, mapInsert st.2 fragment.node.name.node fragment)

/-- query.rs `Document::retain_operation`: drains the definitions, building a
fresh fragments table and choosing at most one operation; returns the updated
document together with the `self.current_operation.is_some()` result. -/
def Document.retain_operation (doc : Document) (operation_name : Option String) :
    Document × Bool :=
  let st := List.foldl (retainStep operation_name)
    (doc.current_operation, ([] : FragmentsMap)) doc.definitions
  ({ doc with definitions := [], fragments := st.2, current_operation := st.1 },
   st.1.isSome)

/-- query.rs `Document::current_operation` accessor:
`self.current_operation.as_ref().expect("Must first call retain_operation")`.
The `expect` on `None` is modelled as a panic. -/
def Document.current_operation_acc (doc : Document) : PRes CurrentOperation :=
  match doc.current_operation with
  | some c => PRes.ok c
  | none => PRes.panicked "Must first call retain_operation"

/-- The `Document` constructed at the end of `parse_query`
(query_parser.rs lines 123-128); the pest grammar phase that produces the
definitions list is abstracted as the input list. -/
def parse_query_result (source : String) (definitions : List (Positioned Definition)) :
    Document :=
  { source := source, definitions := definitions, fragments := [],
    current_operation := none }

/-- query_parser.rs `struct PositionCalculator`: a forward-only cursor over
the source characters.  `input` models the `Peekable<Chars>` iterator state,
`pos` the last byte offset handed to `step`. -/
structure PositionCalculator where
  input : List Char
  pos : Nat
  line : Nat
  column : Nat
deriving DecidableEq, Repr

/-- query_parser.rs `PositionCalculator::new`. -/
def PositionCalculator.new (input : List Char) : PositionCalculator :=
  { input := input, pos := 0, line := 1, column := 1 }

/-- The `for _ in 0..pos - self.pos` loop of `PositionCalculator::step`
(query_parser.rs lines 71-91): runs `n` iterations, each popping one
character from the iterator (and a second one when a carriage return is
followed by a line feed, exactly as `self.input.next()` inside the
`Some('\r')` arm does). -/
def stepLoop : List Char → Nat → Nat → Nat → List Char × Nat × Nat
  | input, 0, line, column => (input, line, column)
  | [], _ + 1, line, column => ([], line, column)
  | '\r' :: '\n' :: rest, n + 1, line, _ => stepLoop rest n (line + 1) 1
  | '\r' :: rest, n + 1, line, column => stepLoop rest n line (column + 1)
  | '\n' :: rest, n + 1, line, _ => stepLoop rest n (line + 1) 1
  | _ :: rest, n + 1, line, column => stepLoop rest n line (column + 1)

/-- query_parser.rs `PositionCalculator::step`, with the node's span start
byte offset passed directly (the source reads it from the pest pair). -/
def PositionCalculator.step (pc : PositionCalculator) (pos : Nat) :
    PositionCalculator × Pos :=
  let r := stepLoop pc.input (pos - pc.pos) pc.line pc.column
  ({ input := r.1, pos := pos, line := r.2.1, column := r.2.2 },
   { line := r.2.1, column := r.2.2 })

/-- Reference line/column count, written from the specification's words:
walk the text up to the given byte offset, a line feed increments line and
resets column to 1, a carriage return immediately followed by a line feed
counts as a single newline event (two bytes), and every other character
increments column by one.  All characters here are ASCII, so one character
is one byte. -/
def manualLineColSpec : List Char → Nat → Nat → Nat → Pos
  | _, 0, line, column => { line := line, column := column }
  | [], _ + 1, line, column => { line := line, column := column }
  | '\r' :: '\n' :: rest, n + 2, line, _ => manualLineColSpec rest n (line + 1) 1
  | '\r' :: '\n' :: _, 1, line, column => { line := line, column := column + 1 }
  | '\n' :: rest, n + 1, line, _ => manualLineColSpec rest n (line + 1) 1
  | _ :: rest, n + 1, line, column => manualLineColSpec rest n line (column + 1)

/-- Rust `char::is_digit(16)`: decimal digits plus `a`-`f` and `A`-`F`. -/
def isHexDigitChar (c : Char) : Bool :=
  c.isDigit || ('a' ≤ c && c ≤ 'f') || ('A' ≤ c && c ≤ 'F')

/-- Numeric value of a hexadecimal digit character. -/
def hexDigitVal (c : Char) : Nat :=
  if c.isDigit then c.toNat - '0'.toNat
  else if 'a' ≤ c then c.toNat - 'a'.toNat + 10
  else c.toNat - 'A'.toNat + 10

/-- Rust `std::char::from_u32`: valid scalar values are those below the
surrogate range or between it and `0x110000`. -/
def charFromU32 (n : Nat) : Option Char :=
  if n < 0xD800 ∨ (0xDFFF < n ∧ n < 0x110000) then some (Char.ofNat n) else none

/-- The escape-decoding loop of `unquote_string` (query_parser.rs lines
667-742).  The `for _ in 0..4` hex loop of the `u` arm is unrolled into the
sequential character checks it performs: each of the four positions first
tests for end of input, then for a hex digit, reporting the same error
messages in the same order as the source. -/
def unquoteLoop (pos : Pos) : List Char → PRes (List Char)
  | [] => .ok []
  | '\\' :: [] => .panicked "slash cant be at the end"
  | '\\' :: c :: cs =>
    if c = '"' ∨ c = '\\' ∨ c = '/' then pushRes c (unquoteLoop pos cs)
    else if c = 'b' then pushRes (Char.ofNat 0x10) (unquoteLoop pos cs)
    else if c = 'f' then pushRes (Char.ofNat 0x0C) (unquoteLoop pos cs)
    else if c = 'n' then pushRes '\n' (unquoteLoop pos cs)
    else if c = 'r' then pushRes '\r' (unquoteLoop pos cs)
    else if c = 't' then pushRes '\t' (unquoteLoop pos cs)
    else if c = 'u' then
      match cs with
      | [] => .err { pos := pos, message := " must have 4 characters after it" }
      | [c1] =>
        if ¬ isHexDigitChar c1 then
          .err { pos := pos, message := String.mk [c1] ++ " is not a valid unicode code point" }
        else .err { pos := pos, message := String.mk [c1] ++ " must have 4 characters after it" }
      | [c1, c2] =>
        if ¬ isHexDigitChar c1 then
          .err { pos := pos, message := String.mk [c1] ++ " is not a valid unicode code point" }
        else if ¬ isHexDigitChar c2 then
          .err { pos := pos, message := String.mk [c2] ++ " is not a valid unicode code point" }
        else .err { pos := pos, message := String.mk [c1, c2] ++ " must have 4 characters after it" }
      | [c1, c2, c3] =>
        if ¬ isHexDigitChar c1 then
          .err { pos := pos, message := String.mk [c1] ++ " is not a valid unicode code point" }
        else if ¬ isHexDigitChar c2 then
          .err { pos := pos, message := String.mk [c2] ++ " is not a valid unicode code point" }
        else if ¬ isHexDigitChar c3 then
          .err { pos := pos, message := String.mk [c3] ++ " is not a valid unicode code point" }
        else .err { pos := pos, message := String.mk [c1, c2, c3] ++ " must have 4 characters after it" }
      | c1 :: c2 :: c3 :: c4 :: rest =>
        if ¬ isHexDigitChar c1 then
          .err { pos := pos, message := String.mk [c1] ++ " is not a valid unicode code point" }
        else if ¬ isHexDigitChar c2 then
          .err { pos := pos, message := String.mk [c2] ++ " is not a valid unicode code point" }
        else if ¬ isHexDigitChar c3 then
          .err { pos := pos, message := String.mk [c3] ++ " is not a valid unicode code point" }
        else if ¬ isHexDigitChar c4 then
          .err { pos := pos, message := String.mk [c4] ++ " is not a valid unicode code point" }
        else
          match charFromU32 (((hexDigitVal c1 * 16 + hexDigitVal c2) * 16 +
              hexDigitVal c3) * 16 + hexDigitVal c4) with
          | some unicode_char => pushRes unicode_char (unquoteLoop pos rest)
          | none =>
            .err { pos := pos,
                   message := String.mk [c1, c2, c3, c4] ++ " is not a valid unicode code point" }
    else .err { pos := pos, message := "bad escaped char " ++ String.mk [c] }
  | c :: cs => pushRes c (unquoteLoop pos cs)

/-- query_parser.rs `unquote_string`: strip the enclosing quotes (the
`debug_assert` that they are present is a precondition of the callers),
return the body unmodified when it holds no backslash, otherwise decode the
escapes left to right. -/
def unquote_string (s : List Char) (pos : Pos) : PRes (List Char) :=
  let s' := (s.drop 1).dropLast
  if s'.contains '\\' then unquoteLoop pos s' else .ok s'

/-- Numeric value of a list of decimal digit characters, most significant
first. -/
def digitsToNat (l : List Char) : Nat :=
  l.foldl (fun acc c => acc * 10 + (c.toNat - '0'.toNat)) 0

/-- Modelled from the spec: the "language's standard numeric literal
parser" applied to the int token (`pair.as_str().parse().unwrap()` in
`parse_value2`), i.e. Rust's `<i64 as FromStr>::from_str`: an optional
sign followed by at least one decimal digit, rejected when the value
falls outside the signed 64-bit range.  (Rust's checked per-digit
accumulation fails exactly when the full-precision value is out of
range, since the accumulated magnitude is monotone in the digits
consumed.) -/
def parseI64 (s : String) : Option Int :=
  let p : Bool × List Char :=
    match s.data with
    | [] => (false, [])
    | c :: rest =>
      if c = '-' then (true, rest)
      else if c = '+' then (false, rest)
      else (false, c :: rest)
  if p.2.isEmpty then none
  else if ¬ p.2.all Char.isDigit then none
  else
    let v : Int := if p.1 then -(digitsToNat p.2 : Int) else (digitsToNat p.2 : Int)
    if -(2 ^ 63) ≤ v ∧ v < 2 ^ 63 then some v else none

/-- Modelled from the spec: the grammar file `query.pest` is not part of
the given sources; this is the GraphQL `IntValue` lexical production the
spec's wire grammar refers to: an optional negative sign followed by
either a single `0` or a nonzero digit and further digits. -/
def isIntToken (s : String) : Bool :=
  let digits : List Char :=
    match s.data with
    | [] => []
    | c :: rest => if c = '-' then rest else c :: rest
  match digits with
  | [] => false
  | d :: ds => if d = '0' then ds.isEmpty else ('1' ≤ d && d ≤ '9') && ds.all Char.isDigit

/-- Mathematical value denoted by an int token (sign and digits read at
full precision). -/
def intTokenValue (s : String) : Int :=
  match s.data with
  | [] => 0
  | c :: rest =>
    if c = '-' then -(digitsToNat rest : Int) else (digitsToNat (c :: rest) : Int)

/-- Consume one or more decimal digits, returning the remaining input. -/
def digits1 : List Char → Option (List Char)
  | [] => none
  | c :: rest => if c.isDigit then some (rest.dropWhile Char.isDigit) else none

/-- Whether the input starts with a decimal digit. -/
def headIsDigit : List Char → Bool
  | [] => false
  | c :: _ => c.isDigit

/-- Modelled from the spec: the grammar's `IntegerPart` of a float token
(an optional sign is handled by the caller): a single `0`, or a nonzero
digit followed by further digits. -/
def gqlIntPart : List Char → Option (List Char)
  | [] => none
  | c :: rest =>
    if c = '0' then some rest
    else if '1' ≤ c && c ≤ '9' then some (rest.dropWhile Char.isDigit)
    else none

/-- Modelled from the spec: the grammar's `FractionalPart`: a dot
followed by one or more digits. -/
def gqlFrac : List Char → Option (List Char)
  | [] => none
  | c :: rest => if c = '.' then digits1 rest else none

/-- `ExponentPart`, shared by the grammar's float production and Rust's
`f64` syntax: `e` or `E`, an optional sign, one or more digits. -/
def expPart : List Char → Option (List Char)
  | [] => none
  | c :: rest =>
    if c = 'e' ∨ c = 'E' then
      match rest with
      | [] => none
      | d :: r2 => if d = '+' ∨ d = '-' then digits1 r2 else digits1 (d :: r2)
    else none

/-- Trailing part after a number: an optional exponent, then end of
input. -/
def f64Tail (r : List Char) : Bool :=
  match expPart r with
  | some r3 => r3.isEmpty
  | none => r.isEmpty

/-- What follows a float token's `IntegerPart`: a `FractionalPart`
and/or an `ExponentPart` (at least one), then end of input. -/
def gqlFloatTail (r1 : List Char) : Bool :=
  match gqlFrac r1 with
  | some r2 => f64Tail r2
  | none =>
    match expPart r1 with
    | some r3 => r3.isEmpty
    | none => false

/-- A float token after its optional negative sign. -/
def floatTokenBody (l : List Char) : Bool :=
  match gqlIntPart l with
  | none => false
  | some r1 => gqlFloatTail r1

/-- Modelled from the spec: the grammar file `query.pest` is not part of
the given sources; this is the GraphQL `FloatValue` lexical production
the spec's wire grammar refers to: an optional negative sign, an
`IntegerPart`, then a `FractionalPart` and/or an `ExponentPart`. -/
def isFloatToken (s : String) : Bool :=
  match s.data with
  | [] => false
  | c :: rest => if c = '-' then floatTokenBody rest else floatTokenBody (c :: rest)

/-- ASCII lowercasing, for Rust's case-insensitive `inf`/`nan` forms. -/
def asciiLower (c : Char) : Char :=
  if 'A' ≤ c && c ≤ 'Z' then Char.ofNat (c.toNat + 32) else c

/-- The case-insensitive `inf`, `infinity` and `nan` forms accepted by
Rust's `f64` parse. -/
def isSpecialF64 (l : List Char) : Bool :=
  l.map asciiLower = ['i', 'n', 'f'] ||
  l.map asciiLower = ['i', 'n', 'f', 'i', 'n', 'i', 't', 'y'] ||
  l.map asciiLower = ['n', 'a', 'n']

/-- Rust's `Number` production for `f64::from_str`: digits optionally
followed by a dot and further digits, or a dot followed by digits. -/
def rustNumber (l : List Char) : Option (List Char) :=
  match digits1 l with
  | some r =>
    match r with
    | [] => some []
    | c :: r2 => if c = '.' then some (r2.dropWhile Char.isDigit) else some r
  | none =>
    match l with
    | [] => none
    | c :: r2 => if c = '.' then digits1 r2 else none

/-- A Rust `Number` followed by an optional exponent, then end of
input. -/
def f64NumberBody (l : List Char) : Bool :=
  match rustNumber l with
  | none => false
  | some r => f64Tail r

/-- Modelled from the spec: the syntax accepted by the "language's
standard numeric literal parser" for floats, i.e. Rust's
`<f64 as FromStr>::from_str`: an optional sign, then the special
`inf`/`infinity`/`nan` forms or a number with optional fraction and
exponent. -/
def isF64Syntax (s : String) : Bool :=
  match s.data with
  | [] => false
  | c :: rest =>
    let l := if c = '+' ∨ c = '-' then rest else c :: rest
    isSpecialF64 l || f64NumberBody l

/-- Modelled from the spec: the float token's standard parse
(`pair.as_str().parse().unwrap()` in `parse_value2`).  Rust's `f64`
parse cannot fail on overflow (out-of-range magnitudes round to
infinity), so it fails exactly when the token is not syntactically a
float; the IEEE value is abstracted as the raw token, since no property
here observes float arithmetic. -/
def parseF64 (s : String) : Option String :=
  if isF64Syntax s then some s else none

/-- Grammar-level value node: the closed set of child rules that
`parse_value2` (query_parser.rs lines 359-386) dispatches on, with the
data each arm reads from the pest pair (token text, and for string
literals the span's starting line/column).  The structure of `object` and
`array` children mirrors the `pair`/`value` productions. -/
inductive GValue where
  | object (pairs : List (String × GValue))
  | array (elems : List GValue)
  | variable_ (name : String)
  | float (raw : String)
  | int (raw : String)
  | string (s : List Char) (pos : Pos)
  | name (s : String)
  | boolean (raw : String)
  | null

mutual

/-- query_parser.rs `parse_value2`: dispatch on the value's single child
rule.  The position calculator threading is omitted: it is stepped only
inside `parse_variable`, whose position is immediately discarded by
`.into_inner()`, so it never influences the produced `Value`.  The
`unwrap`s on the int and float tokens' numeric parses and the
`unreachable!` of the boolean arm are modelled as panics (the panic
messages abbreviate Rust's, which also name the parse error payload). -/
def parse_value2 : GValue → PRes Value
  | .object pairs => parse_object_value pairs
  | .array elems => parse_array_value elems
  | .variable_ name => .ok (Value.variable_ name)
  | .float raw =>
    match parseF64 raw with
    | some value => .ok (Value.float value)
    | none => .panicked "called Result::unwrap() on an Err value"
  | .int raw =>
    match parseI64 raw with
    | some n => .ok (Value.int n)
    | none => .panicked "called Result::unwrap() on an Err value"
  | .string s pos =>
    match unquote_string s pos with
    | .ok l => .ok (Value.string l)
    | .err e => .err e
    | .panicked m => .panicked m
  | .name s => .ok (Value.enum s)
  | .boolean raw =>
    if raw = "true" then .ok (Value.boolean true)
    else if raw = "false" then .ok (Value.boolean false)
    else .panicked "internal error: entered unreachable code"
  | .null => .ok Value.null

/-- The `for pair in pair.into_inner()` loop of `parse_object_value`
(query_parser.rs lines 404-415): fold the `pair` children into the
(association-list model of the) `BTreeMap`, with
`map.extend(once(parse_object_pair(pair)?))` overwriting the entry at an
existing key.  `parse_object_pair`'s extraction of the name and value
children is inlined into the pair representation. -/
def parse_object_inner : List (String × GValue) → List (String × Value) →
    PRes (List (String × Value))
  | [], map => .ok map
  | (name, gv) :: rest, map =>
    match parse_value2 gv with
    | .ok value => parse_object_inner rest (mapInsert map name value)
    | .err e => .err e
    | .panicked m => .panicked m

/-- query_parser.rs `parse_object_value`. -/
def parse_object_value (pairs : List (String × GValue)) : PRes Value :=
  match parse_object_inner pairs [] with
  | .ok map => .ok (Value.object map)
  | .err e => .err e
  | .panicked m => .panicked m

/-- The `for pair in pair.into_inner()` loop of `parse_array_value`
(query_parser.rs lines 417-428). -/
def parse_array_inner : List GValue → PRes (List Value)
  | [] => .ok []
  | gv :: rest =>
    match parse_value2 gv with
    | .ok value =>
      match parse_array_inner rest with
      | .ok l => .ok (value :: l)
      | .err e => .err e
      | .panicked m => .panicked m
    | .err e => .err e
    | .panicked m => .panicked m

/-- query_parser.rs `parse_array_value`. -/
def parse_array_value (elems : List GValue) : PRes Value :=
  match parse_array_inner elems with
  | .ok array => .ok (Value.list array)
  | .err e => .err e
  | .panicked m => .panicked m

end

/-- The values of an object literal's pairs, parsed individually in source
order with no key deduplication: the reference point for the
last-write-wins property of `parse_object_value`. -/
def parse_pairs_values : List (String × GValue) → PRes (List (String × Value))
  | [] => .ok []
  | (name, gv) :: rest =>
    match parse_value2 gv with
    | .ok value =>
      match parse_pairs_values rest with
      | .ok l => .ok ((name, value) :: l)
      | .err e => .err e
      | .panicked m => .panicked m
    | .err e => .err e
    | .panicked m => .panicked m

/-- Value at the last occurrence of a key in a pair list, written from the
claim's words. -/
def lastWins (l : List (String × Value)) (k : String) : Option Value :=
  match l with
  | [] => none
  | (name, v) :: rest =>
    match lastWins rest k with
    | some w => some w
    | none => if name = k then some v else none

/-- Written from the claim's words: whether an operation definition
qualifies for selection, and the `CurrentOperation` it yields.  An
anonymous shorthand selection set always qualifies as operation type
Query; a keyworded operation qualifies iff it has no name, or no name was
requested, or its name equals the requested name. -/
def qualifiesSpec (operation_name : Option String) :
    OperationDefinition → Option CurrentOperation
  | .selectionSet s =>
    some { ty := OperationType.query, variable_definitions := [], selection_set := s }
  | .query q =>
    if q.node.name = none ∨ operation_name = none ∨
        q.node.name.map (fun name => name.node) = operation_name then
      some { ty := OperationType.query,
             variable_definitions := q.node.variable_definitions,
             selection_set := q.node.selection_set }
    else none
  | .mutation m =>
    if m.node.name = none ∨ operation_name = none ∨
        m.node.name.map (fun name => name.node) = operation_name then
      some { ty := OperationType.mutation,
             variable_definitions := m.node.variable_definitions,
             selection_set := m.node.selection_set }
    else none
  | .subscription s =>
    if s.node.name = none ∨ operation_name = none ∨
        s.node.name.map (fun name => name.node) = operation_name then
      some { ty := OperationType.subscription,
             variable_definitions := s.node.variable_definitions,
             selection_set := s.node.selection_set }
    else none

/-- Written from the claim's words: the first operation definition in a
left-to-right pass over the definitions that qualifies; fragment
definitions and every operation after the chosen one are skipped. -/
def firstQualifyingSpec (operation_name : Option String) :
    List (Positioned Definition) → Option CurrentOperation
  | [] => none
  | d :: rest =>
    match d.node with
    | .operation od =>
      match qualifiesSpec operation_name od.node with
      | some c => some c
      | none => firstQualifyingSpec operation_name rest
    | .fragment _ => firstQualifyingSpec operation_name rest

/-- Written from the claim's words: the fragment definition with the given
name occurring last in source order among the definitions. -/
def lastFragmentSpec (defs : List (Positioned Definition)) (name : String) :
    Option (Positioned FragmentDefinition) :=
  match defs with
  | [] => none
  | d :: rest =>
    match lastFragmentSpec rest name with
    | some f => some f
    | none =>
      match d.node with
      | .fragment f => if f.node.name.node = name then some f else none
      | .operation _ => none

/-- Written from the claim's words: the fragments table built only from
the fragment definitions of the given definitions list, later entries
overwriting earlier ones of the same name. -/
def collectFragsSpec (defs : List (Positioned Definition)) : FragmentsMap :=
  defs.foldl
    (fun m d =>
      match d.node with
      | .fragment fragment => mapInsert m fragment.node.name.node fragment
      | .operation _ => m)
    []

/-- Evolution of the current-operation component alone under one
definition. -/
def opStep (operation_name : Option String) (cur : Option CurrentOperation)
    (d : Positioned Definition) : Option CurrentOperation :=
  match d.node with
  | .operation od =>
    match cur with
    | none => qualifiesSpec operation_name od.node
    | some c => some c
  | .fragment _ => cur

/-- Evolution of the fragments component alone under one definition. -/
def fragStep (fr : FragmentsMap) (d : Positioned Definition) : FragmentsMap :=
  match d.node with
  | .operation _ => fr
  | .fragment fragment => mapInsert fr fragment.node.name.node fragment

theorem retainStep_eq_pair (operation_name : Option String)
    (cur : Option CurrentOperation) (fr : FragmentsMap) (d : Positioned Definition) :
    retainStep operation_name (cur, fr) d =
      (opStep operation_name cur d, fragStep fr d) := by
  rcases d with ⟨p, dn⟩
  cases dn with
  | operation od =>
    cases cur with
    | none =>
      rcases od with ⟨q, odn⟩
      cases odn <;>
        simp only [retainStep, opStep, fragStep, qualifiesSpec] <;>
        split <;> rfl
    | some c => rfl
  | fragment f => cases cur <;> rfl

theorem foldl_retainStep_eq (operation_name : Option String)
    (defs : List (Positioned Definition)) (cur : Option CurrentOperation)
    (fr : FragmentsMap) :
    List.foldl (retainStep operation_name) (cur, fr) defs =
      (List.foldl (opStep operation_name) cur defs, List.foldl fragStep fr defs) := by
  induction defs generalizing cur fr with
  | nil => rfl
  | cons d rest ih => rw [List.foldl_cons, retainStep_eq_pair]; exact ih _ _

theorem foldl_opStep_some (operation_name : Option String)
    (defs : List (Positioned Definition)) (c : CurrentOperation) :
    List.foldl (opStep operation_name) (some c) defs = some c := by
  induction defs with
  | nil => rfl
  | cons d rest ih =>
    rw [List.foldl_cons]
    have h : opStep operation_name (some c) d = some c := by
      rcases d with ⟨p, dn⟩; cases dn <;> rfl
    rw [h]; exact ih

theorem foldl_opStep_none (operation_name : Option String)
    (defs : List (Positioned Definition)) :
    List.foldl (opStep operation_name) none defs =
      firstQualifyingSpec operation_name defs := by
  induction defs with
  | nil => rfl
  | cons d rest ih =>
    rw [List.foldl_cons]
    rcases d with ⟨p, dn⟩
    cases dn with
    | operation od =>
      show List.foldl (opStep operation_name) (qualifiesSpec operation_name od.node) rest = _
      cases h : qualifiesSpec operation_name od.node with
      | none => simpa [firstQualifyingSpec, h] using ih
      | some c => simp [firstQualifyingSpec, h, foldl_opStep_some]
    | fragment f => simpa [firstQualifyingSpec, opStep] using ih

theorem mapLookup_mapInsert {β : Type} (m : List (String × β)) (k k' : String) (v : β) :
    mapLookup (mapInsert m k v) k' = if k = k' then some v else mapLookup m k' := by
  induction m with
  | nil => simp [mapInsert, mapLookup]
  | cons p rest ih =>
    rcases p with ⟨a, b⟩
    by_cases hak : a = k
    · subst hak
      by_cases hkk : a = k' <;> simp [mapInsert, mapLookup, hkk]
    · by_cases hak' : a = k'
      · subst hak'
        have hk : ¬ k = a := fun h => hak h.symm
        simp [mapInsert, mapLookup, hak, hk]
      · simp [mapInsert, mapLookup, hak, hak', ih]

theorem mapLookup_foldl_fragStep (defs : List (Positioned Definition))
    (fr : FragmentsMap) (name : String) :
    mapLookup (List.foldl fragStep fr defs) name =
      match lastFragmentSpec defs name with
      | some f => some f
      | none => mapLookup fr name := by
  induction defs generalizing fr with
  | nil => rfl
  | cons d rest ih =>
    rw [List.foldl_cons, ih]
    rcases d with ⟨p, dn⟩
    cases hl : lastFragmentSpec rest name with
    | some f => simp [lastFragmentSpec, hl]
    | none =>
      cases dn with
      | operation od => simp [lastFragmentSpec, hl, fragStep]
      | fragment f =>
        simp only [lastFragmentSpec, hl, fragStep]
        rw [mapLookup_mapInsert]
        by_cases hf : f.node.name.node = name <;> simp [hf]

theorem foldl_fragStep_collect (defs : List (Positioned Definition)) (m : FragmentsMap) :
    List.foldl fragStep m defs =
      defs.foldl
        (fun m d =>
          match d.node with
          | .fragment fragment => mapInsert m fragment.node.name.node fragment
          | .operation _ => m)
        m := by
  induction defs generalizing m with
  | nil => rfl
  | cons d rest ih =>
    rw [List.foldl_cons, List.foldl_cons, ih]
    rcases d with ⟨p, dn⟩
    cases dn <;> rfl

/-- C1: for every parsed Document (`current_operation = none`, as
`parse_query` constructs it) and every optional requested operation name,
`retain_operation` selects exactly the first operation definition in a
left-to-right pass that qualifies — an anonymous shorthand always
qualifies as a Query, a keyworded operation qualifies iff it has no name,
no name was requested, or its name equals the requested one — skipping
every later operation definition silently, and returns true iff some
operation was chosen. -/
theorem retain_operation_selects_first_qualifying (src : String)
    (defs : List (Positioned Definition)) (frags : FragmentsMap)
    (opName : Option String) :
    (({ source := src, definitions := defs, fragments := frags,
        current_operation := none } : Document).retain_operation opName).1.current_operation
        = firstQualifyingSpec opName defs ∧
    (({ source := src, definitions := defs, fragments := frags,
        current_operation := none } : Document).retain_operation opName).2
        = (firstQualifyingSpec opName defs).isSome := by
  constructor <;>
    simp [Document.retain_operation, foldl_retainStep_eq, foldl_opStep_none]

/-- C5: after `retain_operation`, the fragments table maps every fragment
name to the fragment definition occurring last in source order among the
document's definitions (a repeated name overwrites the previous entry,
and no error is raised — `retain_operation` is total). -/
theorem retain_operation_fragments_last_wins (src : String)
    (defs : List (Positioned Definition)) (frags : FragmentsMap)
    (cur : Option CurrentOperation) (opName : Option String) (name : String) :
    mapLookup
        (({ source := src, definitions := defs, fragments := frags,
            current_operation := cur } : Document).retain_operation opName).1.fragments
        name
      = lastFragmentSpec defs name := by
  simp only [Document.retain_operation, foldl_retainStep_eq]
  rw [mapLookup_foldl_fragStep]
  cases lastFragmentSpec defs name <;> rfl

/-- C7: `current_operation` is none on the Document constructed by
`parse_query`; it stays none as long as `retain_operation` returns false;
and once it is some it is never replaced or cleared by any later
`retain_operation` call. -/
theorem current_operation_none_until_retained :
    (∀ (src : String) (defs : List (Positioned Definition)),
      (parse_query_result src defs).current_operation = none) ∧
    (∀ (doc : Document) (opName : Option String),
      (doc.retain_operation opName).2 = false →
        (doc.retain_operation opName).1.current_operation = none) ∧
    (∀ (doc : Document) (opName : Option String) (c : CurrentOperation),
      doc.current_operation = some c →
        (doc.retain_operation opName).1.current_operation = some c) := by
  refine ⟨fun _ _ => rfl, ?_, ?_⟩
  · intro doc opName h
    simp only [Document.retain_operation, foldl_retainStep_eq] at h ⊢
    exact Option.not_isSome_iff_eq_none.mp (by simp [h])
  · intro doc opName c h
    simp [Document.retain_operation, foldl_retainStep_eq, h, foldl_opStep_some]

/-- Witness for C7 at concrete inputs: a document with no definitions
keeps `current_operation = none` (the call returns false), and a document
whose operation is already chosen keeps it unchanged. -/
theorem current_operation_none_until_retained_witness :
    (parse_query_result "" []).current_operation = none ∧
    (({ source := "", definitions := [], fragments := [],
        current_operation := none } : Document).retain_operation none).1.current_operation
      = none ∧
    (({ source := "", definitions := [], fragments := [],
        current_operation := some
          { ty := OperationType.query, variable_definitions := [],
            selection_set := { pos := { line := 1, column := 1 },
                               node := SelectionSet.mk [] } } } : Document).retain_operation
        (some "A")).1.current_operation
      = some
          { ty := OperationType.query, variable_definitions := [],
            selection_set := { pos := { line := 1, column := 1 },
                               node := SelectionSet.mk [] } } :=
  ⟨current_operation_none_until_retained.1 "" [],
   current_operation_none_until_retained.2.1 _ none rfl,
   current_operation_none_until_retained.2.2 _ (some "A") _ rfl⟩

/-- C8: reading `Document::current_operation` while no operation has been
retained panics with the contract-violation message instead of returning
a value or a recoverable error; after a `retain_operation` call that
returns true it returns the chosen operation without failing. -/
theorem current_operation_accessor_contract :
    (∀ doc : Document, doc.current_operation = none →
      doc.current_operation_acc = PRes.panicked "Must first call retain_operation") ∧
    (∀ (doc : Document) (opName : Option String),
      (doc.retain_operation opName).2 = true →
        ∃ c, (doc.retain_operation opName).1.current_operation = some c ∧
          (doc.retain_operation opName).1.current_operation_acc = PRes.ok c) := by
  constructor
  · intro doc h
    simp [Document.current_operation_acc, h]
  · intro doc opName h
    simp only [Document.retain_operation] at h ⊢
    cases hs : (List.foldl (retainStep opName) (doc.current_operation, ([] : FragmentsMap))
        doc.definitions).1 with
    | none => rw [hs] at h; simp at h
    | some c => exact ⟨c, by simp [hs], by simp [Document.current_operation_acc, hs]⟩

/-- Witness for C8 at concrete inputs: the accessor panics on a fresh
document, and returns the operation after a successful retain of an
anonymous shorthand operation. -/
theorem current_operation_accessor_contract_witness :
    (parse_query_result "{ }" []).current_operation_acc
      = PRes.panicked "Must first call retain_operation" ∧
    ∃ c,
      (({ source := "{ }",
          definitions := [⟨{ line := 1, column := 1 },
            Definition.operation ⟨{ line := 1, column := 1 },
              OperationDefinition.selectionSet ⟨{ line := 1, column := 1 },
                SelectionSet.mk []⟩⟩⟩],
          fragments := [], current_operation := none } : Document).retain_operation
          none).1.current_operation = some c ∧
      (({ source := "{ }",
          definitions := [⟨{ line := 1, column := 1 },
            Definition.operation ⟨{ line := 1, column := 1 },
              OperationDefinition.selectionSet ⟨{ line := 1, column := 1 },
                SelectionSet.mk []⟩⟩⟩],
          fragments := [], current_operation := none } : Document).retain_operation
          none).1.current_operation_acc = PRes.ok c :=
  ⟨current_operation_accessor_contract.1 _ rfl,
   current_operation_accessor_contract.2 _ none rfl⟩

/-- C10: every `retain_operation` call drains the definitions to empty and
replaces the fragments table with one built only from the drained
definitions (even when it returns false); a second call therefore returns
the same boolean, leaves `current_operation` unchanged, and replaces the
fragments table with an empty one. -/
theorem retain_operation_drains_and_second_call (src : String)
    (defs : List (Positioned Definition)) (frags : FragmentsMap)
    (cur : Option CurrentOperation) (opName opName2 : Option String) :
    (({ source := src, definitions := defs, fragments := frags,
        current_operation := cur } : Document).retain_operation opName).1.definitions
      = [] ∧
    (({ source := src, definitions := defs, fragments := frags,
        current_operation := cur } : Document).retain_operation opName).1.fragments
      = collectFragsSpec defs ∧
    ((({ source := src, definitions := defs, fragments := frags,
          current_operation := cur } : Document).retain_operation opName).1.retain_operation
        opName2).2
      = (({ source := src, definitions := defs, fragments := frags,
            current_operation := cur } : Document).retain_operation opName).2 ∧
    ((({ source := src, definitions := defs, fragments := frags,
          current_operation := cur } : Document).retain_operation opName).1.retain_operation
        opName2).1.current_operation
      = (({ source := src, definitions := defs, fragments := frags,
            current_operation := cur } : Document).retain_operation opName).1.current_operation ∧
    ((({ source := src, definitions := defs, fragments := frags,
          current_operation := cur } : Document).retain_operation opName).1.retain_operation
        opName2).1.fragments
      = [] := by
  refine ⟨rfl, ?_, ?_, ?_, rfl⟩
  · simp only [Document.retain_operation, foldl_retainStep_eq, collectFragsSpec]
    exact foldl_fragStep_collect defs []
  · rfl
  · rfl

/-- C2 (failing input): stepping the position calculator of source
`a<CR><LF>b` to byte offset 3 (the `b`) reports (2, 2), because the
CR-LF arm of the loop consumes two characters in a single iteration of
the `0..pos - self.pos` loop, while the manual count of the claim gives
(2, 1). -/
theorem position_calculator_crlf_divergence :
    (PositionCalculator.step (PositionCalculator.new ['a', '\r', '\n', 'b']) 3).2
      = { line := 2, column := 2 } ∧
    manualLineColSpec ['a', '\r', '\n', 'b'] 3 1 1 = { line := 2, column := 1 } ∧
    ({ line := 2, column := 2 } : Pos) ≠ { line := 2, column := 1 } := by
  refine ⟨rfl, rfl, ?_⟩
  decide

/-- C3 (failing input): the escape `\b` in a string literal is decoded to
U+0010 (data link escape) by `unquote_string` (`'b' => res.push('\u{0010}')`),
not to the backspace character U+0008 the claim states. -/
theorem unquote_string_backslash_b_divergence :
    unquote_string ['"', '\\', 'b', '"'] { line := 1, column := 1 }
      = PRes.ok [Char.ofNat 0x10] ∧
    Char.ofNat 0x10 ≠ Char.ofNat 0x08 := by
  refine ⟨rfl, ?_⟩
  decide

theorem contains_backslash_cons (xs : List Char) :
    (('\\' :: xs).contains '\\') = true := by
  simp [List.contains_cons]

theorem unquote_string_quoted (body : List Char) (pos : Pos) :
    unquote_string ('"' :: body ++ ['"']) pos =
      if body.contains '\\' then unquoteLoop pos body else .ok body := by
  simp [unquote_string, List.dropLast_concat]

theorem unquoteLoop_no_backslash (pos : Pos) (l : List Char)
    (h : l.contains '\\' = false) : unquoteLoop pos l = .ok l := by
  induction l with
  | nil => rfl
  | cons c cs ih =>
    simp only [List.contains_cons, Bool.or_eq_false_iff, beq_eq_false_iff_ne, ne_eq] at h
    obtain ⟨hc, hcs⟩ := h
    rw [unquoteLoop.eq_def]
    split
    · rename_i heq; exact absurd heq (List.cons_ne_nil c cs)
    · rename_i heq; simp only [List.cons.injEq] at heq; exact absurd heq.1.symm hc
    · rename_i heq; simp only [List.cons.injEq] at heq; exact absurd heq.1.symm hc
    · rename_i c' cs' heq
      simp only [List.cons.injEq] at heq
      obtain ⟨h1, h2⟩ := heq
      subst h1; subst h2
      rw [ih hcs]
      rfl

theorem unquoteLoop_u4 (pos : Pos) (c1 c2 c3 c4 : Char) (rest : List Char) :
    unquoteLoop pos ('\\' :: 'u' :: c1 :: c2 :: c3 :: c4 :: rest) =
      if ¬ isHexDigitChar c1 then
        .err { pos := pos, message := String.mk [c1] ++ " is not a valid unicode code point" }
      else if ¬ isHexDigitChar c2 then
        .err { pos := pos, message := String.mk [c2] ++ " is not a valid unicode code point" }
      else if ¬ isHexDigitChar c3 then
        .err { pos := pos, message := String.mk [c3] ++ " is not a valid unicode code point" }
      else if ¬ isHexDigitChar c4 then
        .err { pos := pos, message := String.mk [c4] ++ " is not a valid unicode code point" }
      else
        match charFromU32 (((hexDigitVal c1 * 16 + hexDigitVal c2) * 16 +
            hexDigitVal c3) * 16 + hexDigitVal c4) with
        | some unicode_char => pushRes unicode_char (unquoteLoop pos rest)
        | none =>
          .err { pos := pos,
                 message := String.mk [c1, c2, c3, c4] ++ " is not a valid unicode code point" } := by
  simp only [unquoteLoop]
  rw [if_neg (by decide), if_neg (by decide), if_neg (by decide), if_neg (by decide),
      if_neg (by decide), if_neg (by decide), if_pos trivial]

theorem unquoteLoop_u1 (pos : Pos) (a : Char) :
    unquoteLoop pos ['\\', 'u', a] =
      if ¬ isHexDigitChar a then
        .err { pos := pos, message := String.mk [a] ++ " is not a valid unicode code point" }
      else
        .err { pos := pos, message := String.mk [a] ++ " must have 4 characters after it" } := rfl

theorem unquoteLoop_u2 (pos : Pos) (a b : Char) :
    unquoteLoop pos ['\\', 'u', a, b] =
      if ¬ isHexDigitChar a then
        .err { pos := pos, message := String.mk [a] ++ " is not a valid unicode code point" }
      else if ¬ isHexDigitChar b then
        .err { pos := pos, message := String.mk [b] ++ " is not a valid unicode code point" }
      else
        .err { pos := pos, message := String.mk [a, b] ++ " must have 4 characters after it" } := rfl

theorem unquoteLoop_u3 (pos : Pos) (a b c : Char) :
    unquoteLoop pos ['\\', 'u', a, b, c] =
      if ¬ isHexDigitChar a then
        .err { pos := pos, message := String.mk [a] ++ " is not a valid unicode code point" }
      else if ¬ isHexDigitChar b then
        .err { pos := pos, message := String.mk [b] ++ " is not a valid unicode code point" }
      else if ¬ isHexDigitChar c then
        .err { pos := pos, message := String.mk [c] ++ " is not a valid unicode code point" }
      else
        .err { pos := pos,
               message := String.mk [a, b, c] ++ " must have 4 characters after it" } := rfl

/-- C4: in a string literal, `\u` consumes exactly four following
characters as hex digits and decodes them as a Unicode code point
producing the corresponding character, leaving the rest of the body
untouched; a non-hex digit among the four, fewer than four characters
remaining before the body ends, or a hex value that is not a valid code
point each yield a parse error positioned at the string literal's
starting position, as does any other character following a backslash. -/
theorem unquote_string_unicode_escape_contract :
    (∀ (pos : Pos) (c1 c2 c3 c4 : Char) (rest : List Char) (ch : Char),
      isHexDigitChar c1 = true → isHexDigitChar c2 = true →
      isHexDigitChar c3 = true → isHexDigitChar c4 = true →
      charFromU32 (((hexDigitVal c1 * 16 + hexDigitVal c2) * 16 +
          hexDigitVal c3) * 16 + hexDigitVal c4) = some ch →
      rest.contains '\\' = false →
      unquote_string ('"' :: ('\\' :: 'u' :: c1 :: c2 :: c3 :: c4 :: rest) ++ ['"']) pos
        = PRes.ok (ch :: rest)) ∧
    (∀ (pos : Pos) (c1 c2 c3 c4 : Char) (rest : List Char),
      ¬ (isHexDigitChar c1 = true ∧ isHexDigitChar c2 = true ∧
          isHexDigitChar c3 = true ∧ isHexDigitChar c4 = true) →
      ∃ msg,
        unquote_string ('"' :: ('\\' :: 'u' :: c1 :: c2 :: c3 :: c4 :: rest) ++ ['"']) pos
          = PRes.err { pos := pos, message := msg }) ∧
    (∀ (pos : Pos) (ds : List Char),
      ds.length < 4 → (∀ c ∈ ds, isHexDigitChar c = true) →
      ∃ msg,
        unquote_string ('"' :: ('\\' :: 'u' :: ds) ++ ['"']) pos
          = PRes.err { pos := pos, message := msg }) ∧
    (∀ (pos : Pos) (c1 c2 c3 c4 : Char) (rest : List Char),
      isHexDigitChar c1 = true → isHexDigitChar c2 = true →
      isHexDigitChar c3 = true → isHexDigitChar c4 = true →
      charFromU32 (((hexDigitVal c1 * 16 + hexDigitVal c2) * 16 +
          hexDigitVal c3) * 16 + hexDigitVal c4) = none →
      ∃ msg,
        unquote_string ('"' :: ('\\' :: 'u' :: c1 :: c2 :: c3 :: c4 :: rest) ++ ['"']) pos
          = PRes.err { pos := pos, message := msg }) ∧
    (∀ (pos : Pos) (c : Char) (rest : List Char),
      c ∉ (['"', '\\', '/', 'b', 'f', 'n', 'r', 't', 'u'] : List Char) →
      ∃ msg,
        unquote_string ('"' :: ('\\' :: c :: rest) ++ ['"']) pos
          = PRes.err { pos := pos, message := msg }) := by
  refine ⟨?_, ?_, ?_, ?_, ?_⟩
  · intro pos c1 c2 c3 c4 rest ch h1 h2 h3 h4 hch hrest
    rw [unquote_string_quoted, contains_backslash_cons, if_pos rfl, unquoteLoop_u4,
        if_neg (not_not_intro h1), if_neg (not_not_intro h2), if_neg (not_not_intro h3),
        if_neg (not_not_intro h4), hch, unquoteLoop_no_backslash pos rest hrest]
    rfl
  · intro pos c1 c2 c3 c4 rest hno
    rw [unquote_string_quoted, contains_backslash_cons, if_pos rfl, unquoteLoop_u4]
    by_cases h1 : isHexDigitChar c1 = true
    · by_cases h2 : isHexDigitChar c2 = true
      · by_cases h3 : isHexDigitChar c3 = true
        · by_cases h4 : isHexDigitChar c4 = true
          · exact absurd ⟨h1, h2, h3, h4⟩ hno
          · exact ⟨_, by rw [if_neg (not_not_intro h1), if_neg (not_not_intro h2),
              if_neg (not_not_intro h3), if_pos h4]⟩
        · exact ⟨_, by rw [if_neg (not_not_intro h1), if_neg (not_not_intro h2), if_pos h3]⟩
      · exact ⟨_, by rw [if_neg (not_not_intro h1), if_pos h2]⟩
    · exact ⟨_, by rw [if_pos h1]⟩
  · intro pos ds hlen hhex
    rw [unquote_string_quoted, contains_backslash_cons, if_pos rfl]
    match ds, hlen with
    | [], _ => exact ⟨_, rfl⟩
    | [a], _ =>
      exact ⟨_, by rw [unquoteLoop_u1, if_neg (not_not_intro (hhex a (by simp)))]⟩
    | [a, b], _ =>
      exact ⟨_, by rw [unquoteLoop_u2, if_neg (not_not_intro (hhex a (by simp))),
        if_neg (not_not_intro (hhex b (by simp)))]⟩
    | [a, b, c], _ =>
      exact ⟨_, by rw [unquoteLoop_u3, if_neg (not_not_intro (hhex a (by simp))),
        if_neg (not_not_intro (hhex b (by simp))), if_neg (not_not_intro (hhex c (by simp)))]⟩
  · intro pos c1 c2 c3 c4 rest h1 h2 h3 h4 hch
    refine ⟨String.mk [c1, c2, c3, c4] ++ " is not a valid unicode code point", ?_⟩
    rw [unquote_string_quoted, contains_backslash_cons, if_pos rfl, unquoteLoop_u4,
        if_neg (not_not_intro h1), if_neg (not_not_intro h2), if_neg (not_not_intro h3),
        if_neg (not_not_intro h4), hch]
  · intro pos c rest hc
    simp only [List.mem_cons, List.not_mem_nil, or_false, not_or] at hc
    obtain ⟨n1, n2, n3, n4, n5, n6, n7, n8, n9⟩ := hc
    have nOr : ¬ (c = '"' ∨ c = '\\' ∨ c = '/') := not_or.mpr ⟨n1, not_or.mpr ⟨n2, n3⟩⟩
    refine ⟨"bad escaped char " ++ String.mk [c], ?_⟩
    rw [unquote_string_quoted, contains_backslash_cons, if_pos rfl]
    rcases rest with _ | ⟨a, _ | ⟨b, _ | ⟨d, _ | ⟨e, tail⟩⟩⟩⟩
    · rw [unquoteLoop.eq_3, if_neg nOr, if_neg n4, if_neg n5, if_neg n6, if_neg n7,
          if_neg n8, if_neg n9]
    · rw [unquoteLoop.eq_4, if_neg nOr, if_neg n4, if_neg n5, if_neg n6, if_neg n7,
          if_neg n8, if_neg n9]
    · rw [unquoteLoop.eq_5, if_neg nOr, if_neg n4, if_neg n5, if_neg n6, if_neg n7,
          if_neg n8, if_neg n9]
    · rw [unquoteLoop.eq_6, if_neg nOr, if_neg n4, if_neg n5, if_neg n6, if_neg n7,
          if_neg n8, if_neg n9]
    · rw [unquoteLoop.eq_7, if_neg nOr, if_neg n4, if_neg n5, if_neg n6, if_neg n7,
          if_neg n8, if_neg n9]

/-- Witness for C4 at concrete inputs: the literal `"A"` decodes to
`"A"`, and the literal `"\uZZZZ"` fails with an error at the string's
starting position. -/
theorem unquote_string_unicode_escape_contract_witness :
    unquote_string ['"', '\\', 'u', '0', '0', '4', '1', '"'] { line := 2, column := 9 }
      = PRes.ok ['A'] ∧
    ∃ msg,
      unquote_string ['"', '\\', 'u', 'Z', 'Z', 'Z', 'Z', '"'] { line := 3, column := 7 }
        = PRes.err { pos := { line := 3, column := 7 }, message := msg } :=
  ⟨unquote_string_unicode_escape_contract.1 { line := 2, column := 9 }
      '0' '0' '4' '1' [] 'A' (by decide) (by decide) (by decide) (by decide)
      (by decide) (by decide),
   unquote_string_unicode_escape_contract.2.1 { line := 3, column := 7 }
      'Z' 'Z' 'Z' 'Z' [] (by decide)⟩

/-- C6 (counterexample): the int token `9223372036854775808` (2^63) is
accepted by the grammar's IntValue production but overflows the signed
64-bit parse, so the `unwrap` in `parse_value2` is reached (a panic) on
grammar-accepted input. -/
theorem int_literal_overflow_unwrap_reachable :
    isIntToken "9223372036854775808" = true ∧
    parseI64 "9223372036854775808" = none ∧
    parse_value2 (GValue.int "9223372036854775808")
      = PRes.panicked "called Result::unwrap() on an Err value" := by
  refine ⟨by decide, by decide, ?_⟩
  simp only [parse_value2]
  rw [(by decide : parseI64 "9223372036854775808" = none)]

/-- C6 (amended): for every int literal token the grammar accepts whose
mathematical value fits in the signed 64-bit range, the standard numeric
parse succeeds with that value and the `unwrap` in `parse_value2` does
not fire. -/
theorem parseI64_int_token_in_range (s : String) (h : isIntToken s = true)
    (hlo : -(2 ^ 63) ≤ intTokenValue s) (hhi : intTokenValue s < 2 ^ 63) :
    parseI64 s = some (intTokenValue s) ∧
    parse_value2 (GValue.int s) = PRes.ok (Value.int (intTokenValue s)) := by
  have hp : parseI64 s = some (intTokenValue s) := by
    unfold isIntToken at h
    unfold parseI64 intTokenValue at *
    rcases hds : s.data with _ | ⟨c, rest⟩ <;> rw [hds] at h hlo hhi
    · simp at h
    · dsimp only at h hlo hhi ⊢
      by_cases hc : c = '-'
      · subst hc
        rw [if_pos rfl] at h hlo hhi ⊢
        dsimp only at h hlo hhi ⊢
        rcases rest with _ | ⟨d, ds⟩
        · simp at h
        · by_cases hd : d = '0'
          · subst hd
            have hds0 : ds = [] := by simpa using h
            subst hds0
            decide
          · simp only [hd, if_false, Bool.and_eq_true, decide_eq_true_eq] at h
            obtain ⟨⟨hd1, hd9⟩, hall⟩ := h
            have hdd : d.isDigit = true := by
              unfold Char.isDigit
              simp only [Bool.and_eq_true, decide_eq_true_eq]
              exact ⟨le_trans (show ('0' : Char) ≤ '1' by decide) hd1,
                le_trans hd9 (show ('9' : Char) ≤ '9' by decide)⟩
            rw [if_neg (by simp), if_neg (by simp [hdd, hall])]
            rw [if_pos ⟨hlo, hhi⟩]
            rfl
      · by_cases hcp : c = '+'
        · subst hcp
          rw [if_neg hc] at h
          simp at h
        · rw [if_neg hc] at h hlo hhi ⊢
          rw [if_neg hcp]
          by_cases hd : c = '0'
          · subst hd
            have hrest0 : rest = [] := by simpa using h
            subst hrest0
            decide
          · simp only [hd, if_false, Bool.and_eq_true, decide_eq_true_eq] at h
            obtain ⟨⟨hd1, hd9⟩, hall⟩ := h
            have hdd : c.isDigit = true := by
              unfold Char.isDigit
              simp only [Bool.and_eq_true, decide_eq_true_eq]
              exact ⟨le_trans (show ('0' : Char) ≤ '1' by decide) hd1,
                le_trans hd9 (show ('9' : Char) ≤ '9' by decide)⟩
            dsimp only
            rw [if_neg (by simp), if_neg (by simp [hdd, hall]), if_pos ⟨hlo, hhi⟩]
            simp [hc]
  exact ⟨hp, by simp only [parse_value2]; rw [hp]⟩

/-- The escape-free trailing part lemma chain for the float half of the
numeric-parse contract: every grammar-accepted float token is
syntactically accepted by Rust's `f64` parse. -/
theorem dropWhile_head_not (l : List Char) (h : headIsDigit l = false) :
    l.dropWhile Char.isDigit = l := by
  cases l with
  | nil => rfl
  | cons c rest =>
    simp only [headIsDigit] at h
    simp [List.dropWhile_cons, h]

theorem digits1_eq_some (x y : List Char) (h : digits1 x = some y) :
    x.dropWhile Char.isDigit = y := by
  cases x with
  | nil => simp [digits1] at h
  | cons c rest =>
    simp only [digits1] at h
    by_cases hc : c.isDigit = true
    · rw [if_pos hc] at h
      injection h with h
      rw [List.dropWhile_cons, if_pos hc]
      exact h
    · rw [if_neg hc] at h
      cases h

theorem digits1_of_gqlIntPart (l r1 : List Char) (hip : gqlIntPart l = some r1)
    (hhead : headIsDigit r1 = false) : digits1 l = some r1 := by
  cases l with
  | nil => simp [gqlIntPart] at hip
  | cons c rest =>
    simp only [gqlIntPart] at hip
    by_cases hc0 : c = '0'
    · subst hc0
      rw [if_pos rfl] at hip
      injection hip with hip
      subst hip
      simp only [digits1]
      rw [if_pos (by decide), dropWhile_head_not rest hhead]
    · rw [if_neg hc0] at hip
      by_cases hc9 : ('1' ≤ c && c ≤ '9') = true
      · rw [if_pos hc9] at hip
        injection hip with hip
        simp only [Bool.and_eq_true, decide_eq_true_eq] at hc9
        have hcd : c.isDigit = true := by
          unfold Char.isDigit
          simp only [Bool.and_eq_true, decide_eq_true_eq]
          exact ⟨le_trans (show ('0' : Char) ≤ '1' by decide) hc9.1,
            le_trans hc9.2 (show ('9' : Char) ≤ '9' by decide)⟩
        simp only [digits1]
        rw [if_pos hcd, hip]
      · rw [if_neg hc9] at hip
        cases hip

theorem gqlFrac_eq (r1 r2p : List Char) (h : gqlFrac r1 = some r2p) :
    ∃ r2, r1 = '.' :: r2 ∧ digits1 r2 = some r2p := by
  cases r1 with
  | nil => simp [gqlFrac] at h
  | cons c r2 =>
    simp only [gqlFrac] at h
    by_cases hc : c = '.'
    · subst hc
      rw [if_pos rfl] at h
      exact ⟨r2, rfl, h⟩
    · rw [if_neg hc] at h
      cases h

theorem expPart_shape (r1 r3 : List Char) (h : expPart r1 = some r3) :
    ∃ c r2, r1 = c :: r2 ∧ (c = 'e' ∨ c = 'E') := by
  cases r1 with
  | nil => simp [expPart] at h
  | cons c r2 =>
    simp only [expPart] at h
    by_cases hc : c = 'e' ∨ c = 'E'
    · exact ⟨c, r2, rfl, hc⟩
    · rw [if_neg hc] at h
      cases h

theorem f64NumberBody_of_floatTokenBody (l : List Char)
    (h : floatTokenBody l = true) : f64NumberBody l = true := by
  unfold floatTokenBody at h
  unfold f64NumberBody
  cases hip : gqlIntPart l with
  | none => rw [hip] at h; simp at h
  | some r1 =>
    rw [hip] at h
    dsimp only at h
    unfold gqlFloatTail at h
    cases hfr : gqlFrac r1 with
    | some r2p =>
      rw [hfr] at h
      dsimp only at h
      obtain ⟨r2, hr1, hd⟩ := gqlFrac_eq r1 r2p hfr
      subst hr1
      have hd1 : digits1 l = some ('.' :: r2) :=
        digits1_of_gqlIntPart l _ hip (by rfl)
      unfold rustNumber
      rw [hd1]
      dsimp only
      rw [if_pos rfl, digits1_eq_some r2 r2p hd]
      exact h
    | none =>
      rw [hfr] at h
      cases hex : expPart r1 with
      | none => rw [hex] at h; simp at h
      | some r3 =>
        rw [hex] at h
        dsimp only at h
        obtain ⟨c, r2, hr1, hce⟩ := expPart_shape r1 r3 hex
        have hhead : headIsDigit r1 = false := by
          subst hr1
          rcases hce with h1 | h1 <;> subst h1 <;> rfl
        have hd1 : digits1 l = some r1 := digits1_of_gqlIntPart l r1 hip hhead
        unfold rustNumber
        rw [hd1]
        subst hr1
        dsimp only
        rw [if_neg (by rcases hce with h1 | h1 <;> subst h1 <;> decide)]
        dsimp only
        unfold f64Tail
        rw [hex]
        exact h

theorem isF64Syntax_of_isFloatToken (s : String) (h : isFloatToken s = true) :
    isF64Syntax s = true := by
  unfold isFloatToken at h
  unfold isF64Syntax
  rcases hds : s.data with _ | ⟨c, rest⟩ <;> rw [hds] at h
  · simp at h
  · dsimp only at h ⊢
    by_cases hc : c = '-'
    · subst hc
      rw [if_pos rfl] at h
      rw [if_pos (Or.inr rfl)]
      simp [f64NumberBody_of_floatTokenBody rest h]
    · rw [if_neg hc] at h
      by_cases hcp : c = '+'
      · subst hcp
        simp [floatTokenBody, gqlIntPart] at h
      · rw [if_neg (not_or.mpr ⟨hcp, hc⟩)]
        simp [f64NumberBody_of_floatTokenBody _ h]

theorem parseF64_float_token (s : String) (h : isFloatToken s = true) :
    parseF64 s = some s := by
  unfold parseF64
  rw [if_pos (isF64Syntax_of_isFloatToken s h)]

/-- C6 (amended): the standard numeric parses performed in `parse_value2`
succeed for every float literal token the grammar accepts, and for every
int literal token the grammar accepts whose mathematical value fits in
the signed 64-bit range; for int tokens outside that range the parse
fails and the `unwrap` is reached. -/
theorem numeric_literal_parse_contract :
    (∀ s : String, isIntToken s = true →
      -(2 ^ 63) ≤ intTokenValue s → intTokenValue s < 2 ^ 63 →
      parseI64 s = some (intTokenValue s) ∧
      parse_value2 (GValue.int s) = PRes.ok (Value.int (intTokenValue s))) ∧
    (∀ s : String, isFloatToken s = true →
      parseF64 s = some s ∧
      parse_value2 (GValue.float s) = PRes.ok (Value.float s)) := by
  constructor
  · exact parseI64_int_token_in_range
  · intro s h
    have hp := parseF64_float_token s h
    exact ⟨hp, by simp only [parse_value2]; rw [hp]⟩

/-- Witness for the amended C6 at concrete inputs: the int token `-123`
(within the 64-bit range) and the float token `1.5e3` both parse
successfully through `parse_value2`. -/
theorem numeric_literal_parse_contract_witness :
    (isIntToken "-123" = true ∧
      parseI64 "-123" = some (intTokenValue "-123") ∧
      parse_value2 (GValue.int "-123") = PRes.ok (Value.int (intTokenValue "-123"))) ∧
    (isFloatToken "1.5e3" = true ∧
      parseF64 "1.5e3" = some "1.5e3" ∧
      parse_value2 (GValue.float "1.5e3") = PRes.ok (Value.float "1.5e3")) :=
  ⟨⟨by decide,
    (numeric_literal_parse_contract.1 "-123" (by decide) (by decide) (by decide)).1,
    (numeric_literal_parse_contract.1 "-123" (by decide) (by decide) (by decide)).2⟩,
   ⟨by decide,
    (numeric_literal_parse_contract.2 "1.5e3" (by decide)).1,
    (numeric_literal_parse_contract.2 "1.5e3" (by decide)).2⟩⟩

theorem mapInsert_mem_keys {β : Type} (m : List (String × β)) (k x : String) (v : β) :
    x ∈ (mapInsert m k v).map Prod.fst ↔ x ∈ m.map Prod.fst ∨ x = k := by
  induction m with
  | nil => simp [mapInsert]
  | cons p rest ih =>
    obtain ⟨a, b⟩ := p
    by_cases hak : a = k
    · subst hak
      simp only [mapInsert, eq_self_iff_true, if_true, List.map_cons, List.mem_cons]
      tauto
    · simp only [mapInsert, if_neg hak, List.map_cons, List.mem_cons, ih]
      tauto

theorem mapInsert_keys_nodup {β : Type} (m : List (String × β)) (k : String) (v : β)
    (h : (m.map Prod.fst).Nodup) : ((mapInsert m k v).map Prod.fst).Nodup := by
  induction m with
  | nil => simp [mapInsert]
  | cons p rest ih =>
    obtain ⟨a, b⟩ := p
    simp only [List.map_cons, List.nodup_cons] at h
    obtain ⟨ha, hrest⟩ := h
    by_cases hak : a = k
    · subst hak
      simp only [mapInsert, eq_self_iff_true, if_true, List.map_cons, List.nodup_cons]
      exact ⟨ha, hrest⟩
    · simp only [mapInsert, if_neg hak, List.map_cons, List.nodup_cons]
      refine ⟨?_, ih hrest⟩
      intro hmem
      rw [mapInsert_mem_keys] at hmem
      rcases hmem with hmem | hxk
      · exact ha hmem
      · exact hak hxk

theorem parse_object_inner_ok (pairs : List (String × GValue))
    (l m0 : List (String × Value)) (h : parse_pairs_values pairs = PRes.ok l) :
    parse_object_inner pairs m0 =
      PRes.ok (l.foldl (fun m p => mapInsert m p.1 p.2) m0) := by
  induction pairs generalizing l m0 with
  | nil =>
    simp only [parse_pairs_values] at h
    cases h
    simp [parse_object_inner]
  | cons p rest ih =>
    obtain ⟨name, gv⟩ := p
    simp only [parse_pairs_values] at h
    split at h
    · rename_i value hv
      split at h
      · rename_i l2 hrest
        cases h
        simp only [parse_object_inner, hv]
        rw [ih l2 (mapInsert m0 name value) hrest]
        rfl
      · exact absurd h (by simp)
      · exact absurd h (by simp)
    · exact absurd h (by simp)
    · exact absurd h (by simp)

theorem mapLookup_foldl_insert (l : List (String × Value))
    (m0 : List (String × Value)) (k : String) :
    mapLookup (l.foldl (fun m p => mapInsert m p.1 p.2) m0) k =
      match lastWins l k with
      | some w => some w
      | none => mapLookup m0 k := by
  induction l generalizing m0 with
  | nil => rfl
  | cons p rest ih =>
    obtain ⟨n, v⟩ := p
    rw [List.foldl_cons, ih]
    cases hl : lastWins rest k with
    | some w => simp [lastWins, hl]
    | none =>
      simp only [lastWins, hl]
      rw [mapLookup_mapInsert]
      by_cases hnk : n = k <;> simp [hnk]

theorem keys_nodup_foldl_insert (l : List (String × Value))
    (m0 : List (String × Value)) (h : (m0.map Prod.fst).Nodup) :
    ((l.foldl (fun m p => mapInsert m p.1 p.2) m0).map Prod.fst).Nodup := by
  induction l generalizing m0 with
  | nil => exact h
  | cons p rest ih =>
    rw [List.foldl_cons]
    exact ih _ (mapInsert_keys_nodup m0 p.1 p.2 h)

/-- C9: when every pair of an object literal parses (to the list `l` of
name/value pairs in source order), `parse_object_value` returns an object
whose mapping sends each key to the value of its last occurrence in
source order, with unique keys (a later duplicate key overwrites the
earlier one in the left-to-right fold). -/
theorem parse_object_value_last_write_wins (pairs : List (String × GValue))
    (l : List (String × Value)) (h : parse_pairs_values pairs = PRes.ok l) :
    ∃ m, parse_object_value pairs = PRes.ok (Value.object m) ∧
      (∀ k, mapLookup m k = lastWins l k) ∧ (m.map Prod.fst).Nodup := by
  refine ⟨l.foldl (fun m p => mapInsert m p.1 p.2) [], ?_, ?_, ?_⟩
  · simp only [parse_object_value]
    rw [parse_object_inner_ok pairs l [] h]
  · intro k
    rw [mapLookup_foldl_insert]
    cases lastWins l k <;> rfl
  · exact keys_nodup_foldl_insert l [] (by simp)

/-- Witness for C9 at a concrete input: the object literal
`{a: null, b: null, a: two}` parses to a mapping in which `a` is bound to
the enum value `two` of its last occurrence. -/
theorem parse_object_value_last_write_wins_witness :
    ∃ m,
      parse_object_value [("a", GValue.null), ("b", GValue.null), ("a", GValue.name "two")]
        = PRes.ok (Value.object m) ∧
      (∀ k, mapLookup m k =
        lastWins [("a", Value.null), ("b", Value.null), ("a", Value.enum "two")] k) ∧
      (m.map Prod.fst).Nodup :=
  parse_object_value_last_write_wins _ _ (by simp [parse_pairs_values, parse_value2])

end AsyncGraphql
